import Mathlib

/-!
Verification development for the `uncommitted` redux slice of the GitButler
frontend.  The slice manages three normalized entity collections — tree
changes, hunk assignments and hunk selections — together with check/uncheck
reducers and tri-state checkbox selectors.

Entity collections are embedded as ordered lists of records; every adapter
operation derives the key of a record with the adapter's `selectId` function,
mirroring the redux entity-adapter semantics (a record is stored under its
own key, so lookups by key always return a record whose key is the one asked
for).
-/

/-- Diff hunk header (old/new start line and line counts). -/
structure HunkHeader where
  oldStart : Nat
  oldLines : Nat
  newStart : Nat
  newLines : Nat
deriving DecidableEq, Repr

/-- Identifier of a single diff line; either side may be absent. -/
structure LineId where
  oldLine : Option Nat
  newLine : Option Nat
deriving DecidableEq, Repr

/-- File-level modification record, keyed by its path. -/
structure TreeChange where
  path : String
  status : String
deriving DecidableEq, Repr

/-- Assignment of a hunk (or whole file when `hunkHeader` is absent) to a
stack (or the unassigned pile when `stackId` is absent). -/
structure HunkAssignment where
  id : Option String
  stackId : Option String
  path : String
  hunkHeader : Option HunkHeader
deriving DecidableEq, Repr

/-- Selection of a hunk (or of specific lines of it) for the next commit.
An empty `lines` list means the whole hunk is selected. -/
structure HunkSelection where
  stableId : Option String
  stackId : Option String
  path : String
  assignmentId : String
  lines : List LineId
deriving DecidableEq, Repr

/-- Modelled from the spec: serialization of a nullable stack id inside a
key.  The sentinel for the absent stack id is the string "null", matching
the template-literal serialization used by `clearHunkSelection`. -/
def stackKey : Option String → String
  | none => "null"
  | some s => s

/-- Modelled from the spec: serialization of a nullable hunk header inside a
key ("sentinel for null hunkHeader"). -/
def headerKey : Option HunkHeader → String
  | none => "null"
  | some h =>
    toString h.oldStart ++ "-" ++ toString h.oldLines ++ "-" ++
      toString h.newStart ++ "-" ++ toString h.newLines

/-- Modelled from the spec: `partialKey(stackId, path)` from
`entityAdapters` (not part of the provided sources) — the prefix of a full
key ending after the path. -/
def pathKey (stackId : Option String) (path : String) : String :=
  stackKey stackId ++ "|" ++ path ++ "|"

/-- Modelled from the spec: `partialKey(stackId)` from `entityAdapters` —
the prefix of a full key ending after the stack id. -/
def stackOnlyKey (stackId : Option String) : String :=
  stackKey stackId ++ "|"

/-- Modelled from the spec: `prefixKey(stackId, dirPath)` from
`entityAdapters` — matches keys whose path starts with the directory path
followed by the path separator. -/
def dirKey (stackId : Option String) (path : String) : String :=
  stackKey stackId ++ "|" ++ path ++ "/"

/-- Modelled from the spec: `compositeKey` from `entityAdapters` — the full
key `stackId|path|hunkHeaderSerialization`. -/
def compositeKey (stackId : Option String) (path : String)
    (hunkHeader : Option HunkHeader) : String :=
  pathKey stackId path ++ headerKey hunkHeader

/-- Key of a tree change (the adapter's `selectId`). -/
def treeChangeId (c : TreeChange) : String := c.path

/-- Key of a hunk assignment: its composite key. -/
def hunkAssignmentId (a : HunkAssignment) : String :=
  compositeKey a.stackId a.path a.hunkHeader

/-- Key of a hunk selection: the composite key of the assignment it
references. -/
def hunkSelectionId (sel : HunkSelection) : String := sel.assignmentId

/-- Structural character-list prefix test. -/
def listPfx : List Char → List Char → Bool
  | [], _ => true
  | _ :: _, [] => false
  | c :: cs, d :: ds => c == d && listPfx cs ds

/-- String prefix test (the javascript `s.startsWith(pfx)`), computed
structurally on the character lists so that it evaluates by reduction. -/
def strStartsWith (s pfx : String) : Bool := listPfx pfx.data s.data

/-- Normalized entity collection, as an ordered list of records. -/
abbrev EntityState (α : Type) := List α

/-- Lookup by key (`selectById`). -/
def selectById {α : Type} (sid : α → String) (s : EntityState α)
    (k : String) : Option α :=
  s.find? (fun a => sid a == k)

/-- Redux `upsertOne`: replace the record stored under the new record's key,
or append it when no record has that key. -/
def upsertOne {α : Type} (sid : α → String) (s : EntityState α) (a : α) :
    EntityState α :=
  if s.any (fun b => sid b == sid a) then
    s.map (fun b => if sid b == sid a then a else b)
  else
    s ++ [a]

/-- Redux `addOne`: append the record unless one with its key exists. -/
def addOne {α : Type} (sid : α → String) (s : EntityState α) (a : α) :
    EntityState α :=
  if s.any (fun b => sid b == sid a) then s else s ++ [a]

/-- Redux `addMany`: `addOne` for each record in order. -/
def addMany {α : Type} (sid : α → String) (s : EntityState α)
    (new : List α) : EntityState α :=
  new.foldl (addOne sid) s

/-- Redux `removeOne`: drop the record stored under the given key. -/
def removeOne {α : Type} (sid : α → String) (s : EntityState α)
    (k : String) : EntityState α :=
  s.filter (fun a => sid a != k)

/-- Redux `removeMany`: drop the records stored under the given keys. -/
def removeMany {α : Type} (sid : α → String) (s : EntityState α)
    (ks : List String) : EntityState α :=
  s.filter (fun a => !(ks.contains (sid a)))

/-- Modelled from the spec: `createSelectByPrefix` from `customSelectors`
(not part of the provided sources) — the records whose key starts with the
given string, in collection order. -/
def selectByPfx {α : Type} (sid : α → String) (s : EntityState α)
    (pfx : String) : List α :=
  s.filter (fun a => strStartsWith (sid a) pfx)

/-- The whole state of the `uncommitted` slice. -/
structure UncommittedState where
  treeChanges : EntityState TreeChange
  hunkAssignments : EntityState HunkAssignment
  hunkSelection : EntityState HunkSelection
deriving DecidableEq, Repr

/-- The slice's initial state: three empty collections. -/
def initialState : UncommittedState := ⟨[], [], []⟩

/-- The `clearHunkSelection` reducer: removes every selection whose key
starts with the serialized stack id. -/
def clearHunkSelection (s : UncommittedState) (stackId : Option String) :
    UncommittedState :=
  let ids := (s.hunkSelection.map hunkSelectionId).filter
    (fun i => strStartsWith i (stackKey stackId))
  { s with hunkSelection := removeMany hunkSelectionId s.hunkSelection ids }

/-- The `checkLine` reducer.  Appends the line to an existing selection;
otherwise requires a matching assignment (throwing when absent) and creates
a fresh selection holding only that line. -/
def checkLine (s : UncommittedState) (stackId : Option String)
    (path : String) (hunkHeader : HunkHeader) (line : LineId) :
    Except String UncommittedState :=
  let key := compositeKey stackId path (some hunkHeader)
  match selectById hunkSelectionId s.hunkSelection key with
  | some sel =>
    let sels := upsertOne hunkSelectionId s.hunkSelection
      { sel with lines := sel.lines ++ [line] }
    .ok { s with hunkSelection := sels }
  | none =>
    match selectById hunkAssignmentId s.hunkAssignments key with
    | none => .error ("Expected to find assignment: " ++ key ++ " ")
    | some a =>
      let sels := addOne hunkSelectionId s.hunkSelection
        ⟨a.id, stackId, a.path, key, [line]⟩
      .ok { s with hunkSelection := sels }

/-- Line comparison used by the uncheck filters: keep a line when it differs
from the given one in its new-line or old-line number. -/
def lineNe (l line : LineId) : Bool :=
  l.newLine != line.newLine || l.oldLine != line.oldLine

/-- The `uncheckLine` reducer.  With an empty line set (whole hunk selected)
the selection becomes all lines of the hunk except the given one; with an
explicit line set the line is filtered out; an empty result removes the
selection.  Throws when the referenced assignment is missing or has no hunk
header. -/
def uncheckLine (s : UncommittedState) (stackId : Option String)
    (path : String) (hunkHeader : HunkHeader) (line : LineId)
    (allLinesInHunk : List LineId) : Except String UncommittedState :=
  let key := compositeKey stackId path (some hunkHeader)
  match selectById hunkSelectionId s.hunkSelection key with
  | none => .ok s
  | some sel =>
    match selectById hunkAssignmentId s.hunkAssignments sel.assignmentId with
    | none => .error ("Expected to find assignment: " ++ key ++ " ")
    | some a =>
      match a.hunkHeader with
      | none => .error "Not implemented"
      | some _ =>
        if sel.lines.isEmpty then
          let newLines := allLinesInHunk.filter (fun l => lineNe l line)
          if newLines.length > 0 then
            let sels := upsertOne hunkSelectionId s.hunkSelection
              { sel with lines := newLines }
            .ok { s with hunkSelection := sels }
          else
            let sels := removeOne hunkSelectionId s.hunkSelection
              sel.assignmentId
            .ok { s with hunkSelection := sels }
        else
          let newLines := sel.lines.filter (fun l => lineNe l line)
          if newLines.length > 0 then
            let sels := upsertOne hunkSelectionId s.hunkSelection
              { sel with lines := newLines }
            .ok { s with hunkSelection := sels }
          else
            let sels := removeOne hunkSelectionId s.hunkSelection
              sel.assignmentId
            .ok { s with hunkSelection := sels }

/-- The `checkHunk` reducer: whole-hunk selection (empty line set) when a
matching assignment exists, otherwise a no-op. -/
def checkHunk (s : UncommittedState) (stackId : Option String)
    (path : String) (hunkHeader : Option HunkHeader) : UncommittedState :=
  let key := compositeKey stackId path hunkHeader
  match selectById hunkAssignmentId s.hunkAssignments key with
  | none => s
  | some a =>
    let sels := upsertOne hunkSelectionId s.hunkSelection
      ⟨a.id, stackId, a.path, key, []⟩
    { s with hunkSelection := sels }

/-- The `uncheckHunk` reducer: removes the selection stored under the key. -/
def uncheckHunk (s : UncommittedState) (stackId : Option String)
    (path : String) (hunkHeader : Option HunkHeader) : UncommittedState :=
  let key := compositeKey stackId path hunkHeader
  { s with hunkSelection := removeOne hunkSelectionId s.hunkSelection key }

/-- Whole-hunk selection record inserted by the file/dir/stack check
reducers for a matched assignment. -/
def checkAllSel (stackId : Option String) (a : HunkAssignment) :
    HunkSelection :=
  ⟨a.id, stackId, a.path, hunkAssignmentId a, []⟩

/-- The `checkFile` reducer: whole-hunk selection for every assignment under
the (stackId, path) prefix. -/
def checkFile (s : UncommittedState) (stackId : Option String)
    (path : String) : UncommittedState :=
  let asgs := selectByPfx hunkAssignmentId s.hunkAssignments
    (pathKey stackId path)
  let sels := asgs.foldl (fun sels a => upsertOne hunkSelectionId sels
    (checkAllSel stackId a)) s.hunkSelection
  { s with hunkSelection := sels }

/-- The `uncheckFile` reducer: removes every selection under the
(stackId, path) prefix. -/
def uncheckFile (s : UncommittedState) (stackId : Option String)
    (path : String) : UncommittedState :=
  let sels := selectByPfx hunkSelectionId s.hunkSelection
    (pathKey stackId path)
  let rest := removeMany hunkSelectionId s.hunkSelection
    (sels.map (fun sel => sel.assignmentId))
  { s with hunkSelection := rest }

/-- The `checkDir` reducer: whole-hunk selection for every assignment under
the (stackId, directory) prefix. -/
def checkDir (s : UncommittedState) (stackId : Option String)
    (path : String) : UncommittedState :=
  let asgs := selectByPfx hunkAssignmentId s.hunkAssignments
    (dirKey stackId path)
  let sels := asgs.foldl (fun sels a => upsertOne hunkSelectionId sels
    (checkAllSel stackId a)) s.hunkSelection
  { s with hunkSelection := sels }

/-- The `uncheckDir` reducer: removes every selection under the
(stackId, directory) prefix. -/
def uncheckDir (s : UncommittedState) (stackId : Option String)
    (path : String) : UncommittedState :=
  let sels := selectByPfx hunkSelectionId s.hunkSelection
    (dirKey stackId path)
  let rest := removeMany hunkSelectionId s.hunkSelection
    (sels.map (fun sel => sel.assignmentId))
  { s with hunkSelection := rest }

/-- The `checkStack` reducer: whole-hunk selection for every assignment
under the stack prefix. -/
def checkStack (s : UncommittedState) (stackId : Option String) :
    UncommittedState :=
  let asgs := selectByPfx hunkAssignmentId s.hunkAssignments
    (stackOnlyKey stackId)
  let sels := asgs.foldl (fun sels a => upsertOne hunkSelectionId sels
    (checkAllSel stackId a)) s.hunkSelection
  { s with hunkSelection := sels }

/-- The `uncheckStack` reducer: removes every selection under the stack
prefix. -/
def uncheckStack (s : UncommittedState) (stackId : Option String) :
    UncommittedState :=
  let sels := selectByPfx hunkSelectionId s.hunkSelection
    (stackOnlyKey stackId)
  let rest := removeMany hunkSelectionId s.hunkSelection
    (sels.map (fun sel => sel.assignmentId))
  { s with hunkSelection := rest }

/-- Key under which an assignment is stored in the re-linking map of
`updateAssignments`: its stable id, falling back to the composite key when
the id is absent or empty (javascript falsiness of the empty string). -/
def stableKeyOfAssignment (a : HunkAssignment) : String :=
  match a.id with
  | some i => if i = "" then hunkAssignmentId a else i
  | none => hunkAssignmentId a

/-- Key with which an old selection is looked up in the re-linking map: its
stable id, falling back to its assignment key when absent or empty. -/
def oldSelectionKey (sel : HunkSelection) : String :=
  match sel.stableId with
  | some i => if i = "" then sel.assignmentId else i
  | none => sel.assignmentId

/-- Lookup in the re-linking map built from the new assignments.  The map
constructor lets later entries overwrite earlier ones with the same key, so
the lookup finds the last assignment whose stable key matches. -/
def mapLookup (assignments : List HunkAssignment) (k : String) :
    Option HunkAssignment :=
  assignments.reverse.find? (fun a => stableKeyOfAssignment a == k)

/-- Selection re-created for a matched new assignment by
`updateAssignments`: the new assignment's stable id and composite key, with
an empty line set. -/
def mkReselection (a : HunkAssignment) : HunkSelection :=
  ⟨a.id, a.stackId, a.path, hunkAssignmentId a, []⟩

/-- Selection rebuild step of `updateAssignments` for one old selection. -/
def relinkStep (assignments : List HunkAssignment)
    (sels : EntityState HunkSelection) (old : HunkSelection) :
    EntityState HunkSelection :=
  match mapLookup assignments (oldSelectionKey old) with
  | some a => addOne hunkSelectionId sels (mkReselection a)
  | none => sels

/-- The `update` reducer (`updateAssignments`): wholesale replaces the tree
changes and hunk assignments, then rebuilds the selections — each old
selection whose stable key matches a new assignment's stable key is
re-created against that assignment with an empty line set; the rest are
dropped. -/
def updateAssignments (s : UncommittedState)
    (assignments : List HunkAssignment) (changes : List TreeChange) :
    UncommittedState :=
  let oldSelections := s.hunkSelection
  { treeChanges := addMany treeChangeId [] changes
    hunkAssignments := addMany hunkAssignmentId [] assignments
    hunkSelection := oldSelections.foldl (relinkStep assignments) [] }

/-- Tri-state checkbox status. -/
inductive CheckboxStatus where
  | checked
  | indeterminate
  | unchecked
deriving DecidableEq, Repr

/-- The `fileCheckStatus` selector: unchecked when no selection lies under
the (stackId, path) prefix; checked when the selections under the prefix
number exactly the assignments under it and all have empty line sets; else
indeterminate. -/
def fileCheckStatus (s : UncommittedState) (stackId : Option String)
    (path : String) : CheckboxStatus :=
  let pfx := pathKey stackId path
  let selection := selectByPfx hunkSelectionId s.hunkSelection pfx
  let stackAssignments := selectByPfx hunkAssignmentId s.hunkAssignments pfx
  if selection.length == 0 then .unchecked
  else if selection.length == stackAssignments.length &&
      selection.all (fun sel => sel.lines.isEmpty) then .checked
  else .indeterminate

/-- Membership of a key in the selection collection (the javascript
`key in selections.entities` test). -/
def hasSelectionKey (sels : EntityState HunkSelection) (k : String) : Bool :=
  sels.any (fun sel => hunkSelectionId sel == k)

/-- The `folderCheckStatus` selector over the (stackId, directory) prefix:
unchecked with no matching assignment, checked when every matching
assignment's key has a selection, indeterminate when some has, else
unchecked. -/
def folderCheckStatus (s : UncommittedState) (stackId : Option String)
    (path : String) : CheckboxStatus :=
  let matched := selectByPfx hunkAssignmentId s.hunkAssignments
    (dirKey stackId path)
  if matched.length == 0 then .unchecked
  else if matched.all (fun a =>
      hasSelectionKey s.hunkSelection (hunkAssignmentId a)) then .checked
  else if matched.any (fun a =>
      hasSelectionKey s.hunkSelection (hunkAssignmentId a)) then
    .indeterminate
  else .unchecked

/-- The `stackCheckStatus` selector over the stack prefix, with the same
policy as `folderCheckStatus`. -/
def stackCheckStatus (s : UncommittedState) (stackId : Option String) :
    CheckboxStatus :=
  let matched := selectByPfx hunkAssignmentId s.hunkAssignments
    (stackOnlyKey stackId)
  if matched.length == 0 then .unchecked
  else if matched.all (fun a =>
      hasSelectionKey s.hunkSelection (hunkAssignmentId a)) then .checked
  else if matched.any (fun a =>
      hasSelectionKey s.hunkSelection (hunkAssignmentId a)) then
    .indeterminate
  else .unchecked

/-- One dispatchable action of the slice. -/
inductive SliceAction where
  | update (assignments : List HunkAssignment) (changes : List TreeChange)
  | checkLine (stackId : Option String) (path : String)
      (hunkHeader : HunkHeader) (line : LineId)
  | uncheckLine (stackId : Option String) (path : String)
      (hunkHeader : HunkHeader) (line : LineId)
      (allLinesInHunk : List LineId)
  | checkHunk (stackId : Option String) (path : String)
      (hunkHeader : Option HunkHeader)
  | uncheckHunk (stackId : Option String) (path : String)
      (hunkHeader : Option HunkHeader)
  | checkFile (stackId : Option String) (path : String)
  | uncheckFile (stackId : Option String) (path : String)
  | checkDir (stackId : Option String) (path : String)
  | uncheckDir (stackId : Option String) (path : String)
  | checkStack (stackId : Option String)
  | uncheckStack (stackId : Option String)
  | clearHunkSelection (stackId : Option String)
deriving Repr

/-- Result of a throwing reducer as observed through the store: on an
exception the dispatch propagates the error and the state is unchanged. -/
def okOr (s : UncommittedState) :
    Except String UncommittedState → UncommittedState
  | .ok s' => s'
  | .error _ => s

/-- Dispatch of one action against the slice state. -/
def applyAction (s : UncommittedState) : SliceAction → UncommittedState
  | .update asgs chs => updateAssignments s asgs chs
  | .checkLine st p h l => okOr s (checkLine s st p h l)
  | .uncheckLine st p h l al => okOr s (uncheckLine s st p h l al)
  | .checkHunk st p h => checkHunk s st p h
  | .uncheckHunk st p h => uncheckHunk s st p h
  | .checkFile st p => checkFile s st p
  | .uncheckFile st p => uncheckFile s st p
  | .checkDir st p => checkDir s st p
  | .uncheckDir st p => uncheckDir s st p
  | .checkStack st => checkStack s st
  | .uncheckStack st => uncheckStack s st
  | .clearHunkSelection st => clearHunkSelection s st

/-- States reachable from the initial state by dispatching actions. -/
inductive Reachable : UncommittedState → Prop where
  | init : Reachable initialState
  | step {s : UncommittedState} (a : SliceAction) :
      Reachable s → Reachable (applyAction s a)

/-- Every selection references an assignment present in the same state. -/
def SelectionsValid (s : UncommittedState) : Prop :=
  ∀ sel ∈ s.hunkSelection, ∃ a ∈ s.hunkAssignments,
    hunkAssignmentId a = sel.assignmentId

/-- Sample hunk header used in concrete instantiations. -/
def sampleHeader : HunkHeader := ⟨1, 2, 3, 4⟩

/-- Sample assignment used in concrete instantiations. -/
def sampleAssignment : HunkAssignment :=
  ⟨some "sid1", some "a", "f.txt", some sampleHeader⟩

/-- Sample state holding exactly the sample assignment and no selections. -/
def sampleState : UncommittedState := ⟨[], [sampleAssignment], []⟩

/-- Second sample header for multi-hunk scenarios. -/
def sampleHeader2 : HunkHeader := ⟨5, 6, 7, 8⟩

/-- Assignment absent of a stable id whose composite key collides with a
stable id carried by an old selection. -/
def c1NewAssignment : HunkAssignment := ⟨none, some "a", "f", some ⟨1, 1, 1, 1⟩⟩

/-- Old selection whose stable id is, as a string, the composite key of
`c1NewAssignment`. -/
def c1OldSelection : HunkSelection :=
  ⟨some (hunkAssignmentId c1NewAssignment), some "a", "g", "x", []⟩

/-- State holding only `c1OldSelection`. -/
def c1State : UncommittedState := ⟨[], [], [c1OldSelection]⟩

/-- Whole-hunk selection of the sample assignment. -/
def sampleSelection : HunkSelection :=
  ⟨some "sid1", some "a", "f.txt",
    compositeKey (some "a") "f.txt" (some sampleHeader), []⟩

/-- State with the sample assignment and its whole-hunk selection. -/
def sampleCheckedState : UncommittedState :=
  ⟨[], [sampleAssignment], [sampleSelection]⟩

/-- Selection of the sample assignment holding one explicit line. -/
def sampleLineSelection : HunkSelection :=
  ⟨some "sid1", some "a", "f.txt",
    compositeKey (some "a") "f.txt" (some sampleHeader), [⟨some 1, some 1⟩]⟩

/-- State with the sample assignment and a one-line selection of it. -/
def sampleLineState : UncommittedState :=
  ⟨[], [sampleAssignment], [sampleLineSelection]⟩

/-- Assignment whose path sits inside a directory. -/
def sampleDirAssignment : HunkAssignment :=
  ⟨some "sid2", some "a", "dir/f.txt", some sampleHeader⟩

/-- Selection of the directory assignment with a non-empty line set. -/
def sampleDirSelection : HunkSelection :=
  ⟨some "sid2", some "a", "dir/f.txt",
    hunkAssignmentId sampleDirAssignment, [⟨some 1, some 1⟩]⟩

/-- State pairing the directory assignment with its line selection. -/
def sampleDirState : UncommittedState :=
  ⟨[], [sampleDirAssignment], [sampleDirSelection]⟩

/-- A member of `upsertOne` is an old member or the inserted record. -/
theorem mem_upsertOne {α : Type} (sid : α → String) {s : EntityState α}
    {a b : α} (h : b ∈ upsertOne sid s a) : b ∈ s ∨ b = a := by
  unfold upsertOne at h
  split at h
  · rcases List.mem_map.mp h with ⟨x, hx, hfx⟩
    by_cases e : (sid x == sid a) = true
    · right
      rw [if_pos e] at hfx
      exact hfx.symm
    · left
      rw [if_neg e] at hfx
      rwa [← hfx]
  · rcases List.mem_append.mp h with h1 | h2
    · exact Or.inl h1
    · exact Or.inr (List.mem_singleton.mp h2)

/-- A member of `addOne` is an old member or the inserted record. -/
theorem mem_addOne {α : Type} (sid : α → String) {s : EntityState α}
    {a b : α} (h : b ∈ addOne sid s a) : b ∈ s ∨ b = a := by
  unfold addOne at h
  split at h
  · exact Or.inl h
  · rcases List.mem_append.mp h with h1 | h2
    · exact Or.inl h1
    · exact Or.inr (List.mem_singleton.mp h2)

/-- `addOne` keeps every old member. -/
theorem mem_addOne_of_mem {α : Type} (sid : α → String) {s : EntityState α}
    {b : α} (a : α) (h : b ∈ s) : b ∈ addOne sid s a := by
  unfold addOne
  split
  · exact h
  · exact List.mem_append.mpr (Or.inl h)

/-- After `addOne` some record carries the inserted record's key. -/
theorem addOne_key_mem {α : Type} (sid : α → String) (s : EntityState α)
    (a : α) : ∃ b ∈ addOne sid s a, sid b = sid a := by
  unfold addOne
  split
  case isTrue hc =>
    rcases List.any_eq_true.mp hc with ⟨x, hx, he⟩
    exact ⟨x, hx, beq_iff_eq.mp he⟩
  case isFalse hc =>
    exact ⟨a, List.mem_append.mpr (Or.inr (List.mem_singleton.mpr rfl)), rfl⟩

/-- `addOne` preserves the presence of any key. -/
theorem addOne_key_mono {α : Type} (sid : α → String) {s : EntityState α}
    {k : String} (a : α) (h : ∃ b ∈ s, sid b = k) :
    ∃ b ∈ addOne sid s a, sid b = k := by
  rcases h with ⟨b, hb, hk⟩
  exact ⟨b, mem_addOne_of_mem sid a hb, hk⟩

/-- A member of `addMany` is an old member or one of the added records. -/
theorem mem_addMany {α : Type} (sid : α → String) {s : EntityState α}
    {l : List α} {b : α} (h : b ∈ addMany sid s l) : b ∈ s ∨ b ∈ l := by
  induction l generalizing s with
  | nil => exact Or.inl h
  | cons x t ih =>
    have h0 : b ∈ addMany sid (addOne sid s x) t := h
    rcases ih h0 with h1 | h2
    · rcases mem_addOne sid h1 with h3 | h4
      · exact Or.inl h3
      · exact Or.inr (by simp [h4])
    · exact Or.inr (List.mem_cons_of_mem x h2)

/-- `addMany` preserves the presence of any key. -/
theorem addMany_key_mono {α : Type} (sid : α → String) {s : EntityState α}
    {k : String} (l : List α) (h : ∃ b ∈ s, sid b = k) :
    ∃ b ∈ addMany sid s l, sid b = k := by
  induction l generalizing s with
  | nil => exact h
  | cons x t ih => exact ih (addOne_key_mono sid x h)

/-- Every added record's key is present after `addMany`. -/
theorem addMany_key_of_mem {α : Type} (sid : α → String) (s : EntityState α)
    {l : List α} {a : α} (h : a ∈ l) :
    ∃ b ∈ addMany sid s l, sid b = sid a := by
  induction l generalizing s with
  | nil => cases h
  | cons x t ih =>
    rcases List.mem_cons.mp h with h1 | h2
    · subst h1
      exact addMany_key_mono sid t (addOne_key_mem sid s a)
    · exact ih (addOne sid s x) h2

/-- A successful `selectById` returns a member carrying the requested key. -/
theorem selectById_mem {α : Type} (sid : α → String) {s : EntityState α}
    {k : String} {a : α} (h : selectById sid s k = some a) :
    a ∈ s ∧ sid a = k := by
  unfold selectById at h
  have h1 := @List.find?_some _ (fun x => sid x == k) a s h
  exact ⟨List.mem_of_find?_eq_some h, beq_iff_eq.mp h1⟩

/-- When no record carries a key, `selectById` for it fails. -/
theorem selectById_eq_none {α : Type} (sid : α → String) {s : EntityState α}
    {k : String} (h : ∀ b ∈ s, sid b ≠ k) : selectById sid s k = none := by
  unfold selectById
  refine List.find?_eq_none.mpr ?_
  intro x hx
  simpa using h x hx

/-- When `selectById` fails, no record carries the key. -/
theorem selectById_none_forall {α : Type} (sid : α → String)
    {s : EntityState α} {k : String} (h : selectById sid s k = none) :
    ∀ b ∈ s, sid b ≠ k := by
  unfold selectById at h
  intro b hb
  have := List.find?_eq_none.mp h b hb
  simpa using this

/-- Lookup of the key of a freshly upserted record returns that record. -/
theorem selectById_upsertOne_self {α : Type} (sid : α → String)
    (s : EntityState α) (a : α) {k : String} (hk : sid a = k) :
    selectById sid (upsertOne sid s a) k = some a := by
  unfold selectById upsertOne
  split
  case isTrue hc =>
    induction s with
    | nil => simp at hc
    | cons b t ih =>
      simp only [List.map_cons, List.find?_cons]
      by_cases e : (sid b == sid a) = true
      · rw [if_pos e]
        have : (sid a == k) = true := beq_iff_eq.mpr hk
        simp [this]
      · rw [if_neg e]
        have hbk : (sid b == k) = false := by
          refine beq_eq_false_iff_ne.mpr ?_
          intro hcon
          exact e (beq_iff_eq.mpr (by rw [hcon, hk]))
        rw [hbk]
        have hct : t.any (fun x => sid x == sid a) = true := by
          rcases List.any_eq_true.mp hc with ⟨x, hx, hxe⟩
          rcases List.mem_cons.mp hx with h1 | h2
          · exact absurd (h1 ▸ hxe) (by simp [e])
          · exact List.any_eq_true.mpr ⟨x, h2, hxe⟩
        simpa using ih hct
  case isFalse hc =>
    rw [List.find?_append]
    have h1 : s.find? (fun x => sid x == k) = none := by
      refine List.find?_eq_none.mpr ?_
      intro x hx
      have h2 : sid x ≠ sid a := by
        simpa using List.any_eq_false.mp (Bool.of_not_eq_true hc) x hx
      simp only [beq_iff_eq]
      exact fun hcon => h2 (hcon.trans hk.symm)
    rw [h1]
    simp [hk]

/-- Lookup of a removed key fails. -/
theorem selectById_removeOne_self {α : Type} (sid : α → String)
    (s : EntityState α) (k : String) :
    selectById sid (removeOne sid s k) k = none := by
  refine selectById_eq_none sid ?_
  intro b hb
  have := (List.mem_filter.mp hb).2
  simpa using this

/-- Lookup of the key of a freshly added record returns that record when the
key was previously absent. -/
theorem selectById_addOne_self {α : Type} (sid : α → String)
    {s : EntityState α} (a : α) {k : String} (hk : sid a = k)
    (h : selectById sid s k = none) :
    selectById sid (addOne sid s a) k = some a := by
  have hall := selectById_none_forall sid h
  have hc : s.any (fun b => sid b == sid a) = false := by
    refine List.any_eq_false.mpr ?_
    intro x hx
    simp only [beq_iff_eq]
    exact fun hcon => hall x hx (hcon.trans hk)
  unfold selectById addOne
  rw [if_neg (by simp [hc])]
  rw [List.find?_append]
  have h1 : s.find? (fun x => sid x == k) = none := by
    refine List.find?_eq_none.mpr ?_
    intro x hx
    simpa using hall x hx
  rw [h1]
  simp [hk]

/-- Upserting the same record twice is the same as upserting it once. -/
theorem upsertOne_idem {α : Type} (sid : α → String) (s : EntityState α)
    (a : α) : upsertOne sid (upsertOne sid s a) a = upsertOne sid s a := by
  by_cases hc : s.any (fun b => sid b == sid a) = true
  · have h1 : upsertOne sid s a =
        s.map (fun b => if sid b == sid a then a else b) := by
      unfold upsertOne
      rw [if_pos hc]
    have h2 : (s.map (fun b => if sid b == sid a then a else b)).any
        (fun b => sid b == sid a) = true := by
      rcases List.any_eq_true.mp hc with ⟨x, hx, he⟩
      refine List.any_eq_true.mpr ?_
      refine ⟨a, List.mem_map.mpr ⟨x, hx, by rw [if_pos he]⟩, by simp⟩
    rw [h1]
    unfold upsertOne
    rw [if_pos h2, List.map_map]
    refine List.map_congr_left ?_
    intro b _
    by_cases e : (sid b == sid a) = true
    · simp [Function.comp, e]
    · simp [Function.comp, e]
  · have h1 : upsertOne sid s a = s ++ [a] := by
      unfold upsertOne
      rw [if_neg hc]
    have h2 : (s ++ [a]).any (fun b => sid b == sid a) = true := by
      refine List.any_eq_true.mpr ⟨a, ?_, by simp⟩
      exact List.mem_append.mpr (Or.inr (List.mem_singleton.mpr rfl))
    rw [h1]
    unfold upsertOne
    rw [if_pos h2, List.map_append]
    have h3 : s.map (fun b => if sid b == sid a then a else b) = s := by
      have hall := List.any_eq_false.mp (Bool.of_not_eq_true hc)
      refine List.map_congr_left ?_ |>.trans (List.map_id s)
      intro b hb
      have := hall b hb
      simp only [Bool.not_eq_true] at this
      rw [this]
      rfl
    rw [h3]
    simp

/-- A member of `removeOne` was already present. -/
theorem mem_removeOne {α : Type} (sid : α → String) {s : EntityState α}
    {k : String} {b : α} (h : b ∈ removeOne sid s k) : b ∈ s :=
  (List.mem_filter.mp h).1

/-- A member of `removeMany` was already present. -/
theorem mem_removeMany {α : Type} (sid : α → String) {s : EntityState α}
    {ks : List String} {b : α} (h : b ∈ removeMany sid s ks) : b ∈ s :=
  (List.mem_filter.mp h).1

/-- A successful re-linking map lookup returns one of the new assignments,
stored under the requested stable key. -/
theorem mapLookup_eq_some {assignments : List HunkAssignment} {k : String}
    {a : HunkAssignment} (h : mapLookup assignments k = some a) :
    a ∈ assignments ∧ stableKeyOfAssignment a = k := by
  unfold mapLookup at h
  have h1 := @List.find?_some _ (fun x => stableKeyOfAssignment x == k) a
    assignments.reverse h
  exact ⟨List.mem_reverse.mp (List.mem_of_find?_eq_some h),
    beq_iff_eq.mp h1⟩

/-- A member of the selection-rebuild fold comes from the accumulator or is
the re-created selection of an old selection's matched assignment. -/
theorem mem_relinkFold {asgs : List HunkAssignment}
    {olds : List HunkSelection} {acc : EntityState HunkSelection}
    {sel : HunkSelection} (h : sel ∈ olds.foldl (relinkStep asgs) acc) :
    sel ∈ acc ∨ ∃ o ∈ olds, ∃ a : HunkAssignment,
      mapLookup asgs (oldSelectionKey o) = some a ∧
        sel = mkReselection a := by
  induction olds generalizing acc with
  | nil => exact Or.inl h
  | cons o t ih =>
    have h0 : sel ∈ t.foldl (relinkStep asgs) (relinkStep asgs acc o) := h
    rcases ih h0 with h1 | h2
    · unfold relinkStep at h1
      cases hm : mapLookup asgs (oldSelectionKey o) with
      | none =>
        rw [hm] at h1
        exact Or.inl h1
      | some a =>
        rw [hm] at h1
        rcases mem_addOne _ h1 with h3 | h4
        · exact Or.inl h3
        · exact Or.inr ⟨o, List.mem_cons_self o t, a, hm, h4⟩
    · rcases h2 with ⟨o2, ho2, a, hm, he⟩
      exact Or.inr ⟨o2, List.mem_cons_of_mem o ho2, a, hm, he⟩

/-- The selection-rebuild step only ever adds empty-line selections. -/
theorem relinkStep_lines_empty {asgs : List HunkAssignment}
    {acc : EntityState HunkSelection} {o : HunkSelection}
    (h : ∀ b ∈ acc, b.lines = ([] : List LineId)) :
    ∀ b ∈ relinkStep asgs acc o, b.lines = [] := by
  intro b hb
  unfold relinkStep at hb
  cases hm : mapLookup asgs (oldSelectionKey o) with
  | none =>
    rw [hm] at hb
    exact h b hb
  | some a =>
    rw [hm] at hb
    rcases mem_addOne _ hb with h1 | h2
    · exact h b h1
    · rw [h2]
      rfl

/-- The selection-rebuild fold keeps any empty-line selection key present in
the accumulator. -/
theorem relinkFold_key_mono {asgs : List HunkAssignment}
    {olds : List HunkSelection} {acc : EntityState HunkSelection}
    {k : String}
    (h : ∃ sel ∈ acc, hunkSelectionId sel = k ∧ sel.lines = []) :
    ∃ sel ∈ olds.foldl (relinkStep asgs) acc,
      hunkSelectionId sel = k ∧ sel.lines = [] := by
  induction olds generalizing acc with
  | nil => exact h
  | cons o t ih =>
    have h2 : ∃ sel ∈ relinkStep asgs acc o,
        hunkSelectionId sel = k ∧ sel.lines = [] := by
      rcases h with ⟨sel, hs, hk, hl⟩
      refine ⟨sel, ?_, hk, hl⟩
      unfold relinkStep
      cases mapLookup asgs (oldSelectionKey o) with
      | none => exact hs
      | some a => exact mem_addOne_of_mem _ _ hs
    exact ih h2

/-- When an old selection's stable key matches a new assignment, the rebuilt
collection holds an empty-line selection under that assignment's composite
key. -/
theorem relinkFold_hit {asgs : List HunkAssignment}
    {olds : List HunkSelection} {acc : EntityState HunkSelection}
    {o : HunkSelection} {a : HunkAssignment} (ho : o ∈ olds)
    (hm : mapLookup asgs (oldSelectionKey o) = some a)
    (hacc : ∀ b ∈ acc, b.lines = ([] : List LineId)) :
    ∃ sel ∈ olds.foldl (relinkStep asgs) acc,
      hunkSelectionId sel = hunkAssignmentId a ∧ sel.lines = [] := by
  induction olds generalizing acc with
  | nil => cases ho
  | cons x t ih =>
    rcases List.mem_cons.mp ho with h1 | h2
    · subst h1
      have hstep : relinkStep asgs acc o =
          addOne hunkSelectionId acc (mkReselection a) := by
        unfold relinkStep
        rw [hm]
      rcases addOne_key_mem hunkSelectionId acc (mkReselection a) with
        ⟨b, hb, hsid⟩
      have hbr : b ∈ relinkStep asgs acc o := by
        rw [hstep]
        exact hb
      have h3 : ∃ sel ∈ relinkStep asgs acc o,
          hunkSelectionId sel = hunkAssignmentId a ∧ sel.lines = [] := by
        refine ⟨b, hbr, hsid, ?_⟩
        rcases mem_addOne _ hb with hb1 | hb2
        · exact hacc b hb1
        · rw [hb2]
          rfl
      have h4 : ∃ sel ∈ t.foldl (relinkStep asgs) (relinkStep asgs acc o),
          hunkSelectionId sel = hunkAssignmentId a ∧ sel.lines = [] :=
        relinkFold_key_mono h3
      exact h4
    · exact ih h2 (relinkStep_lines_empty hacc)

/-- A member of the file/dir/stack check fold comes from the accumulator or
is the whole-hunk selection of a matched assignment. -/
theorem mem_checkAllFold {st : Option String} {l : List HunkAssignment}
    {acc : EntityState HunkSelection} {sel : HunkSelection}
    (h : sel ∈ l.foldl (fun sels a => upsertOne hunkSelectionId sels
      (checkAllSel st a)) acc) :
    sel ∈ acc ∨ ∃ a ∈ l, sel = checkAllSel st a := by
  induction l generalizing acc with
  | nil => exact Or.inl h
  | cons x t ih =>
    have h0 : sel ∈ t.foldl (fun sels a => upsertOne hunkSelectionId sels
        (checkAllSel st a)) (upsertOne hunkSelectionId acc
          (checkAllSel st x)) := h
    rcases ih h0 with h1 | h2
    · rcases mem_upsertOne _ h1 with h3 | h4
      · exact Or.inl h3
      · exact Or.inr ⟨x, List.mem_cons_self x t, h4⟩
    · rcases h2 with ⟨a, ha, he⟩
      exact Or.inr ⟨a, List.mem_cons_of_mem x ha, he⟩


/-- Dispatching any action preserves the validity of selection references:
afterwards every selection still points at an assignment of the new state. -/
theorem applyAction_valid {s : UncommittedState} (act : SliceAction)
    (h : SelectionsValid s) : SelectionsValid (applyAction s act) := by
  cases act with
  | update asgs chs =>
    intro sel hm
    have hm2 : sel ∈ s.hunkSelection.foldl (relinkStep asgs) [] := hm
    rcases mem_relinkFold hm2 with h1 | ⟨o, _, a, hmap, he⟩
    · cases h1
    · rcases addMany_key_of_mem hunkAssignmentId []
        (mapLookup_eq_some hmap).1 with ⟨b, hb, hkey⟩
      refine ⟨b, hb, ?_⟩
      rw [hkey, he]
      rfl
  | checkLine st p hh l =>
    simp only [applyAction, checkLine]
    split
    next sel0 heq =>
      intro sel hm
      have hm2 : sel ∈ upsertOne hunkSelectionId s.hunkSelection
          { sel0 with lines := sel0.lines ++ [l] } := hm
      rcases mem_upsertOne _ hm2 with h1 | h2
      · exact h sel h1
      · rcases h sel0 (selectById_mem _ heq).1 with ⟨a, ha, hk⟩
        refine ⟨a, ha, ?_⟩
        rw [hk, h2]
    next heq =>
      split
      next heq2 =>
        intro sel hm
        exact h sel hm
      next a heq2 =>
        intro sel hm
        have hm2 : sel ∈ addOne hunkSelectionId s.hunkSelection
            ⟨a.id, st, a.path, compositeKey st p (some hh), [l]⟩ := hm
        rcases mem_addOne _ hm2 with h1 | h2
        · exact h sel h1
        · refine ⟨a, (selectById_mem _ heq2).1, ?_⟩
          rw [h2]
          exact (selectById_mem _ heq2).2
  | uncheckLine st p hh l al =>
    simp only [applyAction, uncheckLine]
    split
    next heq =>
      intro sel hm
      exact h sel hm
    next sel0 heq =>
      split
      next heq2 =>
        intro sel hm
        exact h sel hm
      next a heq2 =>
        split
        next hh2 =>
          intro sel hm
          exact h sel hm
        next hd hh2 =>
          split
          · split
            · intro sel hm
              have hm2 : sel ∈ upsertOne hunkSelectionId s.hunkSelection
                  { sel0 with
                    lines := al.filter (fun x => lineNe x l) } := hm
              rcases mem_upsertOne _ hm2 with h1 | h2
              · exact h sel h1
              · rcases h sel0 (selectById_mem _ heq).1 with ⟨b, hb, hk⟩
                refine ⟨b, hb, ?_⟩
                rw [hk, h2]
            · intro sel hm
              have hm2 : sel ∈ removeOne hunkSelectionId s.hunkSelection
                  sel0.assignmentId := hm
              exact h sel (mem_removeOne _ hm2)
          · split
            · intro sel hm
              have hm2 : sel ∈ upsertOne hunkSelectionId s.hunkSelection
                  { sel0 with
                    lines := sel0.lines.filter (fun x => lineNe x l) } := hm
              rcases mem_upsertOne _ hm2 with h1 | h2
              · exact h sel h1
              · rcases h sel0 (selectById_mem _ heq).1 with ⟨b, hb, hk⟩
                refine ⟨b, hb, ?_⟩
                rw [hk, h2]
            · intro sel hm
              have hm2 : sel ∈ removeOne hunkSelectionId s.hunkSelection
                  sel0.assignmentId := hm
              exact h sel (mem_removeOne _ hm2)
  | checkHunk st p hh =>
    simp only [applyAction, checkHunk]
    split
    next heq =>
      intro sel hm
      exact h sel hm
    next a heq =>
      intro sel hm
      have hm2 : sel ∈ upsertOne hunkSelectionId s.hunkSelection
          ⟨a.id, st, a.path, compositeKey st p hh, []⟩ := hm
      rcases mem_upsertOne _ hm2 with h1 | h2
      · exact h sel h1
      · refine ⟨a, (selectById_mem _ heq).1, ?_⟩
        rw [h2]
        exact (selectById_mem _ heq).2
  | uncheckHunk st p hh =>
    intro sel hm
    exact h sel (mem_removeOne _ hm)
  | checkFile st p =>
    intro sel hm
    have hm2 : sel ∈ (selectByPfx hunkAssignmentId s.hunkAssignments
        (pathKey st p)).foldl (fun sels a => upsertOne hunkSelectionId sels
          (checkAllSel st a)) s.hunkSelection := hm
    rcases mem_checkAllFold hm2 with h1 | ⟨a, ha, he⟩
    · exact h sel h1
    · refine ⟨a, (List.mem_filter.mp ha).1, ?_⟩
      rw [he]
      rfl
  | uncheckFile st p =>
    intro sel hm
    exact h sel (mem_removeMany _ hm)
  | checkDir st p =>
    intro sel hm
    have hm2 : sel ∈ (selectByPfx hunkAssignmentId s.hunkAssignments
        (dirKey st p)).foldl (fun sels a => upsertOne hunkSelectionId sels
          (checkAllSel st a)) s.hunkSelection := hm
    rcases mem_checkAllFold hm2 with h1 | ⟨a, ha, he⟩
    · exact h sel h1
    · refine ⟨a, (List.mem_filter.mp ha).1, ?_⟩
      rw [he]
      rfl
  | checkStack st =>
    intro sel hm
    have hm2 : sel ∈ (selectByPfx hunkAssignmentId s.hunkAssignments
        (stackOnlyKey st)).foldl (fun sels a => upsertOne hunkSelectionId
          sels (checkAllSel st a)) s.hunkSelection := hm
    rcases mem_checkAllFold hm2 with h1 | ⟨a, ha, he⟩
    · exact h sel h1
    · refine ⟨a, (List.mem_filter.mp ha).1, ?_⟩
      rw [he]
      rfl
  | uncheckDir st p =>
    intro sel hm
    exact h sel (mem_removeMany _ hm)
  | uncheckStack st =>
    intro sel hm
    exact h sel (mem_removeMany _ hm)
  | clearHunkSelection st =>
    intro sel hm
    exact h sel (mem_removeMany _ hm)

/-- C9: in every state reachable from the initial (empty) state by any
sequence of the slice's reducers, every hunk selection's assignmentId is
the key of a hunk assignment present in the same state. -/
theorem C9_reachable_selections_valid {s : UncommittedState}
    (h : Reachable s) : SelectionsValid s := by
  induction h with
  | init =>
    intro sel hm
    cases hm
  | step a _ ih => exact applyAction_valid a ih

/-- Witness for C9 at a concrete reachable state: load a snapshot and check
its hunk. -/
theorem C9_witness :
    SelectionsValid (applyAction (applyAction initialState
      (SliceAction.update [sampleAssignment] []))
      (SliceAction.checkHunk (some "a") "f.txt" (some sampleHeader))) :=
  C9_reachable_selections_valid
    (Reachable.step _ (Reachable.step _ Reachable.init))

/-- C6: when no hunk assignment exists for the key, `checkHunk` is a no-op:
it cannot fail (it is a total function) and it leaves the whole state —
tree changes, assignments and selections — unchanged. -/
theorem C6_checkHunk_noop (s : UncommittedState) (stackId : Option String)
    (path : String) (hh : Option HunkHeader)
    (h : selectById hunkAssignmentId s.hunkAssignments
      (compositeKey stackId path hh) = none) :
    checkHunk s stackId path hh = s := by
  simp [checkHunk, h]

/-- Witness for C6 at the empty state. -/
theorem C6_witness :
    selectById hunkAssignmentId initialState.hunkAssignments
      (compositeKey (some "a") "f.txt" (some sampleHeader)) = none ∧
    checkHunk initialState (some "a") "f.txt" (some sampleHeader) =
      initialState :=
  ⟨rfl, C6_checkHunk_noop initialState (some "a") "f.txt"
    (some sampleHeader) rfl⟩

/-- C8: `checkHunk` is idempotent when a matching assignment exists:
dispatching it twice yields exactly the same state as dispatching it
once. -/
theorem C8_checkHunk_idem (s : UncommittedState) (stackId : Option String)
    (path : String) (hh : Option HunkHeader) (a : HunkAssignment)
    (h : selectById hunkAssignmentId s.hunkAssignments
      (compositeKey stackId path hh) = some a) :
    checkHunk (checkHunk s stackId path hh) stackId path hh =
      checkHunk s stackId path hh := by
  simp [checkHunk, h, upsertOne_idem]

/-- Witness for C8 at a concrete state holding the sample assignment. -/
theorem C8_witness :
    selectById hunkAssignmentId sampleState.hunkAssignments
      (compositeKey (some "a") "f.txt" (some sampleHeader)) =
        some sampleAssignment ∧
    checkHunk (checkHunk sampleState (some "a") "f.txt"
        (some sampleHeader)) (some "a") "f.txt" (some sampleHeader) =
      checkHunk sampleState (some "a") "f.txt" (some sampleHeader) := by
  constructor
  · decide
  · exact C8_checkHunk_idem sampleState (some "a") "f.txt"
      (some sampleHeader) sampleAssignment (by decide)


/-- C7: `uncheckLine` raises the unimplemented invariant-violation error
exactly when the selection found under the key references an assignment
without a hunk header (whole-file assignment); an error result never
reaches the store, so the state is unmodified in that case. -/
theorem C7_uncheckLine_whole_file (s : UncommittedState)
    (stackId : Option String) (path : String) (hh : HunkHeader)
    (line : LineId) (allLinesInHunk : List LineId) :
    uncheckLine s stackId path hh line allLinesInHunk =
        Except.error "Not implemented" ↔
      ∃ sel, selectById hunkSelectionId s.hunkSelection
          (compositeKey stackId path (some hh)) = some sel ∧
        ∃ a, selectById hunkAssignmentId s.hunkAssignments
            sel.assignmentId = some a ∧ a.hunkHeader = none := by
  constructor
  · intro h
    unfold uncheckLine at h
    dsimp only at h
    split at h
    next heq => cases h
    next sel heq =>
      split at h
      next heq2 =>
        exfalso
        have hlen := congrArg String.length (Except.error.inj h)
        simp [String.length_append] at hlen
        have e1 : "Expected to find assignment: ".length = 29 := rfl
        have e2 : " ".length = 1 := rfl
        have e3 : "Not implemented".length = 15 := rfl
        rw [e1, e2, e3] at hlen
        omega
      next a heq2 =>
        split at h
        next hhd => exact ⟨sel, heq, a, heq2, hhd⟩
        next hd hhd =>
          split at h <;> split at h <;> cases h
  · rintro ⟨sel, hsel, a, ha, hhd⟩
    simp [uncheckLine, hsel, ha, hhd]

/-- The uncheck filter keeps exactly the lines different from the given
one: comparing both line numbers is full `LineId` equality. -/
theorem lineNe_eq (x line : LineId) : lineNe x line = (x != line) := by
  by_cases h : x = line
  · subst h
    simp [lineNe]
  · have h1 : (x != line) = true := bne_iff_ne.mpr h
    rw [h1]
    cases x with
    | mk xo xn =>
      cases line with
      | mk lo ln =>
        simp only [lineNe, Bool.or_eq_true, bne_iff_ne]
        by_contra hc
        rw [not_or] at hc
        rcases hc with ⟨hn, ho⟩
        rw [not_not] at hn ho
        exact h (by rw [hn, ho])

/-- A line never differs from itself. -/
theorem lineNe_self (x : LineId) : lineNe x x = false := by
  simp [lineNe]

/-- C5: with no selection under the key, `checkLine` creates a selection
holding exactly the given line when a matching assignment exists, and fails
with the not-found error when none does (it throws rather than silently
succeeding); with an existing selection it appends the line and does not
fail. -/
theorem C5_checkLine_not_found (s : UncommittedState)
    (stackId : Option String) (path : String) (hh : HunkHeader)
    (line : LineId) :
    (selectById hunkSelectionId s.hunkSelection
        (compositeKey stackId path (some hh)) = none →
      (∀ a, selectById hunkAssignmentId s.hunkAssignments
          (compositeKey stackId path (some hh)) = some a →
        ∃ s2, checkLine s stackId path hh line = Except.ok s2 ∧
          selectById hunkSelectionId s2.hunkSelection
              (compositeKey stackId path (some hh)) =
            some ⟨a.id, stackId, a.path,
              compositeKey stackId path (some hh), [line]⟩) ∧
      (selectById hunkAssignmentId s.hunkAssignments
          (compositeKey stackId path (some hh)) = none →
        ∃ e, checkLine s stackId path hh line = Except.error e)) ∧
    (∀ sel, selectById hunkSelectionId s.hunkSelection
        (compositeKey stackId path (some hh)) = some sel →
      ∃ s2, checkLine s stackId path hh line = Except.ok s2 ∧
        selectById hunkSelectionId s2.hunkSelection
            (compositeKey stackId path (some hh)) =
          some { sel with lines := sel.lines ++ [line] }) := by
  constructor
  · intro hnone
    constructor
    · intro a ha
      refine ⟨{ s with hunkSelection := (addOne hunkSelectionId
          s.hunkSelection ⟨a.id, stackId, a.path,
            compositeKey stackId path (some hh), [line]⟩) }, ?_, ?_⟩
      · simp [checkLine, hnone, ha]
      · exact selectById_addOne_self hunkSelectionId _ rfl hnone
    · intro hnone2
      exact ⟨"Expected to find assignment: " ++
        compositeKey stackId path (some hh) ++ " ",
        by simp [checkLine, hnone, hnone2]⟩
  · intro sel hsel
    refine ⟨{ s with hunkSelection := (upsertOne hunkSelectionId
        s.hunkSelection { sel with lines := sel.lines ++ [line] }) },
      ?_, ?_⟩
    · simp [checkLine, hsel]
    · exact selectById_upsertOne_self hunkSelectionId _ _
        (selectById_mem _ hsel).2

/-- Witness for C5: creating a single-line selection on the sample state,
and the not-found failure on the empty state. -/
theorem C5_witness :
    (∃ s2, checkLine sampleState (some "a") "f.txt" sampleHeader
        ⟨none, some 5⟩ = Except.ok s2 ∧
      selectById hunkSelectionId s2.hunkSelection
          (compositeKey (some "a") "f.txt" (some sampleHeader)) =
        some ⟨some "sid1", some "a", "f.txt",
          compositeKey (some "a") "f.txt" (some sampleHeader),
          [⟨none, some 5⟩]⟩) ∧
    (∃ e, checkLine initialState (some "a") "f.txt" sampleHeader
        ⟨none, some 5⟩ = Except.error e) :=
  ⟨((C5_checkLine_not_found sampleState (some "a") "f.txt" sampleHeader
      ⟨none, some 5⟩).1 rfl).1 sampleAssignment (by decide),
   ((C5_checkLine_not_found initialState (some "a") "f.txt" sampleHeader
      ⟨none, some 5⟩).1 rfl).2 rfl⟩

/-- C2: `uncheckLine` on an existing selection whose referenced assignment
has a hunk header: an empty line set turns into all lines of the hunk
except the given one, an explicit line set loses the given line, and in
either shape an empty result removes the selection entirely. -/
theorem C2_uncheckLine_policy (s : UncommittedState)
    (stackId : Option String) (path : String) (hh : HunkHeader)
    (line : LineId) (allLinesInHunk : List LineId) (sel : HunkSelection)
    (a : HunkAssignment) (hd : HunkHeader)
    (hsel : selectById hunkSelectionId s.hunkSelection
      (compositeKey stackId path (some hh)) = some sel)
    (ha : selectById hunkAssignmentId s.hunkAssignments sel.assignmentId =
      some a)
    (hhd : a.hunkHeader = some hd) :
    (sel.lines = [] →
      (allLinesInHunk.filter (fun x => x != line) ≠ [] →
        ∃ s2, uncheckLine s stackId path hh line allLinesInHunk =
            Except.ok s2 ∧
          selectById hunkSelectionId s2.hunkSelection
              (compositeKey stackId path (some hh)) =
            some { sel with
              lines := (allLinesInHunk.filter (fun x => x != line)) }) ∧
      (allLinesInHunk.filter (fun x => x != line) = [] →
        ∃ s2, uncheckLine s stackId path hh line allLinesInHunk =
            Except.ok s2 ∧
          selectById hunkSelectionId s2.hunkSelection
              (compositeKey stackId path (some hh)) = none)) ∧
    (sel.lines ≠ [] →
      ((sel.lines.filter (fun x => x != line)) ≠ [] →
        ∃ s2, uncheckLine s stackId path hh line allLinesInHunk =
            Except.ok s2 ∧
          selectById hunkSelectionId s2.hunkSelection
              (compositeKey stackId path (some hh)) =
            some { sel with
              lines := (sel.lines.filter (fun x => x != line)) }) ∧
      ((sel.lines.filter (fun x => x != line)) = [] →
        ∃ s2, uncheckLine s stackId path hh line allLinesInHunk =
            Except.ok s2 ∧
          selectById hunkSelectionId s2.hunkSelection
              (compositeKey stackId path (some hh)) = none)) := by
  have hkey : sel.assignmentId = compositeKey stackId path (some hh) :=
    (selectById_mem _ hsel).2
  have hfa : allLinesInHunk.filter (fun x => x != line) =
      allLinesInHunk.filter (fun l => lineNe l line) :=
    (List.filter_congr (fun x _ => lineNe_eq x line)).symm
  have hfs : sel.lines.filter (fun x => x != line) =
      sel.lines.filter (fun l => lineNe l line) :=
    (List.filter_congr (fun x _ => lineNe_eq x line)).symm
  constructor
  · intro hemp
    constructor
    · intro hne
      rw [hfa] at hne ⊢
      refine ⟨{ s with hunkSelection := (upsertOne hunkSelectionId
          s.hunkSelection { sel with
            lines := allLinesInHunk.filter (fun l => lineNe l line) }) },
        ?_, ?_⟩
      · have hlen : 0 < (allLinesInHunk.filter
            (fun l => lineNe l line)).length := List.length_pos.mpr hne
        simp [uncheckLine, hsel, ha, hhd, hemp, hlen]
      · exact selectById_upsertOne_self hunkSelectionId _ _
          (selectById_mem _ hsel).2
    · intro hnil
      rw [hfa] at hnil
      refine ⟨{ s with hunkSelection := (removeOne hunkSelectionId
          s.hunkSelection sel.assignmentId) }, ?_, ?_⟩
      · simp [uncheckLine, hsel, ha, hhd, hemp, hnil]
      · rw [← hkey]
        exact selectById_removeOne_self hunkSelectionId _ _
  · intro hemp2
    have hie : sel.lines.isEmpty = false := by
      cases hl : sel.lines with
      | nil => exact absurd hl hemp2
      | cons x t => rfl
    constructor
    · intro hne
      rw [hfs] at hne ⊢
      refine ⟨{ s with hunkSelection := (upsertOne hunkSelectionId
          s.hunkSelection { sel with
            lines := sel.lines.filter (fun l => lineNe l line) }) },
        ?_, ?_⟩
      · have hlen : 0 < (sel.lines.filter
            (fun l => lineNe l line)).length := List.length_pos.mpr hne
        simp [uncheckLine, hsel, ha, hhd, hie, hlen]
      · exact selectById_upsertOne_self hunkSelectionId _ _
          (selectById_mem _ hsel).2
    · intro hnil
      rw [hfs] at hnil
      refine ⟨{ s with hunkSelection := (removeOne hunkSelectionId
          s.hunkSelection sel.assignmentId) }, ?_, ?_⟩
      · simp [uncheckLine, hsel, ha, hhd, hie, hnil]
      · rw [← hkey]
        exact selectById_removeOne_self hunkSelectionId _ _

/-- Witness for C2: unchecking one of two lines of a whole-hunk selection
leaves the other line selected. -/
theorem C2_witness :
    ∃ s2, uncheckLine sampleCheckedState (some "a") "f.txt" sampleHeader
        ⟨some 1, some 1⟩ [⟨some 1, some 1⟩, ⟨some 2, some 2⟩] =
      Except.ok s2 ∧
      selectById hunkSelectionId s2.hunkSelection
          (compositeKey (some "a") "f.txt" (some sampleHeader)) =
        some { sampleSelection with
          lines := (([⟨some 1, some 1⟩, ⟨some 2, some 2⟩] :
            List LineId).filter (fun x => x != ⟨some 1, some 1⟩)) } :=
  ((C2_uncheckLine_policy sampleCheckedState (some "a") "f.txt"
      sampleHeader ⟨some 1, some 1⟩ [⟨some 1, some 1⟩, ⟨some 2, some 2⟩]
      sampleSelection sampleAssignment sampleHeader
      (by decide) (by decide) rfl).1 rfl).1 (by decide)

/-- C10: `checkLine` appends without a duplicate check — re-checking an
already-selected line stores it twice — and one `uncheckLine` of that line
then removes every occurrence, because removal filters by line identity. -/
theorem C10_checkLine_duplicates (s : UncommittedState)
    (stackId : Option String) (path : String) (hh : HunkHeader)
    (line : LineId) (allLinesInHunk : List LineId) (sel : HunkSelection)
    (a : HunkAssignment) (hd : HunkHeader)
    (hsel : selectById hunkSelectionId s.hunkSelection
      (compositeKey stackId path (some hh)) = some sel)
    (hmem : line ∈ sel.lines)
    (ha : selectById hunkAssignmentId s.hunkAssignments sel.assignmentId =
      some a)
    (hhd : a.hunkHeader = some hd) :
    ∃ s1, checkLine s stackId path hh line = Except.ok s1 ∧
      selectById hunkSelectionId s1.hunkSelection
          (compositeKey stackId path (some hh)) =
        some { sel with lines := sel.lines ++ [line] } ∧
      2 ≤ (sel.lines ++ [line]).count line ∧
      ∃ s2, uncheckLine s1 stackId path hh line allLinesInHunk =
          Except.ok s2 ∧
        ∀ sel2, selectById hunkSelectionId s2.hunkSelection
            (compositeKey stackId path (some hh)) = some sel2 →
          sel2.lines.count line = 0 := by
  have hkey : sel.assignmentId = compositeKey stackId path (some hh) :=
    (selectById_mem _ hsel).2
  refine ⟨{ s with hunkSelection := (upsertOne hunkSelectionId
      s.hunkSelection { sel with lines := sel.lines ++ [line] }) },
    by simp [checkLine, hsel], ?_, ?_, ?_⟩
  · exact selectById_upsertOne_self hunkSelectionId _ _ hkey
  · have h1 : 0 < sel.lines.count line := List.count_pos_iff.mpr hmem
    have h2 : (sel.lines ++ [line]).count line =
        sel.lines.count line + 1 := by
      simp [List.count_append]
    omega
  · have hsel1 : selectById hunkSelectionId
        (upsertOne hunkSelectionId s.hunkSelection
          { sel with lines := sel.lines ++ [line] })
        (compositeKey stackId path (some hh)) =
        some { sel with lines := sel.lines ++ [line] } :=
      selectById_upsertOne_self hunkSelectionId _ _ hkey
    have hie : (sel.lines ++ [line]).isEmpty = false := by
      cases hl : sel.lines ++ [line] with
      | nil => exact absurd hl (by simp)
      | cons x t => rfl
    have hnotin : line ∉ (sel.lines ++ [line]).filter
        (fun l => lineNe l line) := by
      intro hmem2
      have := (List.mem_filter.mp hmem2).2
      rw [lineNe_self] at this
      cases this
    have hcount : ((sel.lines ++ [line]).filter
        (fun l => lineNe l line)).count line = 0 :=
      List.count_eq_zero.mpr hnotin
    by_cases hc : 0 < ((sel.lines ++ [line]).filter
        (fun l => lineNe l line)).length
    · refine ⟨{ s with hunkSelection := (upsertOne hunkSelectionId
          (upsertOne hunkSelectionId s.hunkSelection
            { sel with lines := sel.lines ++ [line] })
          { sel with lines := ((sel.lines ++ [line]).filter
            (fun l => lineNe l line)) }) }, ?_, ?_⟩
      · unfold uncheckLine
        dsimp only
        rw [hsel1]
        dsimp only
        rw [ha]
        dsimp only
        rw [hhd]
        dsimp only
        rw [if_neg (show ¬ ((sel.lines ++ [line]).isEmpty = true) by
          simp [hie])]
        rw [if_pos hc]
      · intro sel2 hsel2
        have hup : selectById hunkSelectionId
            (upsertOne hunkSelectionId
              (upsertOne hunkSelectionId s.hunkSelection
                { sel with lines := sel.lines ++ [line] })
              { sel with lines := ((sel.lines ++ [line]).filter
                (fun l => lineNe l line)) })
            (compositeKey stackId path (some hh)) =
            some { sel with lines := ((sel.lines ++ [line]).filter
              (fun l => lineNe l line)) } :=
          selectById_upsertOne_self hunkSelectionId _ _ hkey
        rw [hup] at hsel2
        cases hsel2
        exact hcount
    · refine ⟨{ s with hunkSelection := (removeOne hunkSelectionId
          (upsertOne hunkSelectionId s.hunkSelection
            { sel with lines := sel.lines ++ [line] })
          sel.assignmentId) }, ?_, ?_⟩
      · unfold uncheckLine
        dsimp only
        rw [hsel1]
        dsimp only
        rw [ha]
        dsimp only
        rw [hhd]
        dsimp only
        rw [if_neg (show ¬ ((sel.lines ++ [line]).isEmpty = true) by
          simp [hie])]
        rw [if_neg hc]
      · intro sel2 hsel2
        rw [← hkey] at hsel2
        rw [selectById_removeOne_self] at hsel2
        cases hsel2

/-- Witness for C10: re-checking the already-selected line of the sample
one-line selection stores it twice; a single uncheck then clears it. -/
theorem C10_witness :
    ∃ s1, checkLine sampleLineState (some "a") "f.txt" sampleHeader
        ⟨some 1, some 1⟩ = Except.ok s1 ∧
      selectById hunkSelectionId s1.hunkSelection
          (compositeKey (some "a") "f.txt" (some sampleHeader)) =
        some { sampleLineSelection with
          lines := (sampleLineSelection.lines ++ [⟨some 1, some 1⟩]) } ∧
      2 ≤ (sampleLineSelection.lines ++
        [(⟨some 1, some 1⟩ : LineId)]).count ⟨some 1, some 1⟩ ∧
      ∃ s2, uncheckLine s1 (some "a") "f.txt" sampleHeader
          ⟨some 1, some 1⟩ [] = Except.ok s2 ∧
        ∀ sel2, selectById hunkSelectionId s2.hunkSelection
            (compositeKey (some "a") "f.txt" (some sampleHeader)) =
          some sel2 →
          sel2.lines.count ⟨some 1, some 1⟩ = 0 :=
  C10_checkLine_duplicates sampleLineState (some "a") "f.txt" sampleHeader
    ⟨some 1, some 1⟩ [] sampleLineSelection sampleAssignment sampleHeader
    (by decide) (by decide) (by decide) rfl

/-- With duplicate-free key columns and every selection referencing an
assignment, "as many selections as assignments, all with empty lines" is
the same as "every assignment has an empty-line selection". -/
theorem coverage_iff_counts (sels : List HunkSelection)
    (asgs : List HunkAssignment)
    (hnds : (sels.map hunkSelectionId).Nodup)
    (hnda : (asgs.map hunkAssignmentId).Nodup)
    (hsub : ∀ sel ∈ sels, ∃ a ∈ asgs,
      hunkAssignmentId a = hunkSelectionId sel) :
    (sels.length = asgs.length ∧ ∀ sel ∈ sels, sel.lines = []) ↔
    ∀ a ∈ asgs, ∃ sel ∈ sels, hunkSelectionId sel = hunkAssignmentId a ∧
      sel.lines = [] := by
  have hsubkeys : ∀ k ∈ sels.map hunkSelectionId,
      k ∈ asgs.map hunkAssignmentId := by
    intro k hk
    rcases List.mem_map.mp hk with ⟨sel, hselm, hke⟩
    rcases hsub sel hselm with ⟨a, ham, hak⟩
    exact List.mem_map.mpr ⟨a, ham, by rw [hak, hke]⟩
  have hfinsub : (sels.map hunkSelectionId).toFinset ⊆
      (asgs.map hunkAssignmentId).toFinset := by
    intro k hk
    rw [List.mem_toFinset] at hk ⊢
    exact hsubkeys k hk
  constructor
  · rintro ⟨hlen, hemp⟩
    have hcards : (asgs.map hunkAssignmentId).toFinset.card ≤
        (sels.map hunkSelectionId).toFinset.card := by
      rw [List.toFinset_card_of_nodup hnds, List.toFinset_card_of_nodup hnda]
      simp [hlen]
    have hfeq := Finset.eq_of_subset_of_card_le hfinsub hcards
    intro a ha
    have hk : hunkAssignmentId a ∈ (sels.map hunkSelectionId).toFinset := by
      rw [hfeq, List.mem_toFinset]
      exact List.mem_map.mpr ⟨a, ha, rfl⟩
    rw [List.mem_toFinset] at hk
    rcases List.mem_map.mp hk with ⟨sel, hselm, hke⟩
    exact ⟨sel, hselm, hke, hemp sel hselm⟩
  · intro hcov
    have hkeysup : ∀ k ∈ asgs.map hunkAssignmentId,
        k ∈ sels.map hunkSelectionId := by
      intro k hk
      rcases List.mem_map.mp hk with ⟨a, ham, hke⟩
      rcases hcov a ham with ⟨sel, hselm, hsk, _⟩
      exact List.mem_map.mpr ⟨sel, hselm, by rw [hsk, hke]⟩
    have hfinsup : (asgs.map hunkAssignmentId).toFinset ⊆
        (sels.map hunkSelectionId).toFinset := by
      intro k hk
      rw [List.mem_toFinset] at hk ⊢
      exact hkeysup k hk
    have hfeq : (sels.map hunkSelectionId).toFinset =
        (asgs.map hunkAssignmentId).toFinset :=
      Finset.Subset.antisymm hfinsub hfinsup
    have hlen : sels.length = asgs.length := by
      have hcard := congrArg Finset.card hfeq
      rw [List.toFinset_card_of_nodup hnds,
        List.toFinset_card_of_nodup hnda] at hcard
      simpa using hcard
    refine ⟨hlen, ?_⟩
    intro sel hselm
    rcases hsub sel hselm with ⟨a, ham, hak⟩
    rcases hcov a ham with ⟨sel2, hsel2m, hs2k, hs2emp⟩
    have heq : sel2 = sel := by
      have hinj := List.inj_on_of_nodup_map hnds
      exact hinj hsel2m hselm (by rw [hs2k, hak])
    rw [← heq]
    exact hs2emp

/-- C3 counterexample: read literally, the claimed characterization fails
already at the empty state — with no assignment and no selection under the
prefix, "every assignment under the prefix has a selection with an empty
line set" holds vacuously, yet `fileCheckStatus` answers `unchecked`, not
`checked`. -/
theorem C3_counterexample :
    (∀ a ∈ selectByPfx hunkAssignmentId initialState.hunkAssignments
        (pathKey (some "a") "f.txt"),
      ∃ sel ∈ selectByPfx hunkSelectionId initialState.hunkSelection
          (pathKey (some "a") "f.txt"),
        hunkSelectionId sel = hunkAssignmentId a ∧ sel.lines = []) ∧
    fileCheckStatus initialState (some "a") "f.txt" ≠
      CheckboxStatus.checked := by
  constructor
  · intro a ha
    exact absurd ha (List.not_mem_nil a)
  · decide

/-- C3 (amended): `fileCheckStatus` is exactly one of the three states; it
is `unchecked` precisely when no selection lies under the (stackId, path)
prefix; and — in states whose key columns are duplicate-free and whose
selections all reference existing assignments — it is `checked` precisely
when at least one selection lies under the prefix and every assignment
under the prefix has a selection with an empty line set. -/
theorem C3_fileCheckStatus_tristate (s : UncommittedState)
    (stackId : Option String) (path : String)
    (hnds : (s.hunkSelection.map hunkSelectionId).Nodup)
    (hnda : (s.hunkAssignments.map hunkAssignmentId).Nodup)
    (hval : SelectionsValid s) :
    (fileCheckStatus s stackId path = CheckboxStatus.checked ∨
     fileCheckStatus s stackId path = CheckboxStatus.indeterminate ∨
     fileCheckStatus s stackId path = CheckboxStatus.unchecked) ∧
    (fileCheckStatus s stackId path = CheckboxStatus.unchecked ↔
      selectByPfx hunkSelectionId s.hunkSelection (pathKey stackId path) =
        []) ∧
    (fileCheckStatus s stackId path = CheckboxStatus.checked ↔
      (selectByPfx hunkSelectionId s.hunkSelection (pathKey stackId path) ≠
        [] ∧
       ∀ a ∈ selectByPfx hunkAssignmentId s.hunkAssignments
          (pathKey stackId path),
        ∃ sel ∈ selectByPfx hunkSelectionId s.hunkSelection
            (pathKey stackId path),
          hunkSelectionId sel = hunkAssignmentId a ∧ sel.lines = [])) := by
  have htri : ∀ c : CheckboxStatus, c = CheckboxStatus.checked ∨
      c = CheckboxStatus.indeterminate ∨ c = CheckboxStatus.unchecked := by
    intro c
    cases c
    · exact Or.inl rfl
    · exact Or.inr (Or.inl rfl)
    · exact Or.inr (Or.inr rfl)
  have hndsP : ((selectByPfx hunkSelectionId s.hunkSelection
      (pathKey stackId path)).map hunkSelectionId).Nodup :=
    ((List.filter_sublist _).map hunkSelectionId).nodup hnds
  have hndaP : ((selectByPfx hunkAssignmentId s.hunkAssignments
      (pathKey stackId path)).map hunkAssignmentId).Nodup :=
    ((List.filter_sublist _).map hunkAssignmentId).nodup hnda
  have hsub : ∀ sel ∈ selectByPfx hunkSelectionId s.hunkSelection
      (pathKey stackId path),
      ∃ a ∈ selectByPfx hunkAssignmentId s.hunkAssignments
        (pathKey stackId path),
        hunkAssignmentId a = hunkSelectionId sel := by
    intro sel hs
    rcases List.mem_filter.mp hs with ⟨hm, hpfx⟩
    rcases hval sel hm with ⟨a, ham, hak⟩
    refine ⟨a, List.mem_filter.mpr ⟨ham, ?_⟩, hak⟩
    show strStartsWith (hunkAssignmentId a) (pathKey stackId path) = true
    rw [hak]
    exact hpfx
  have hcount := coverage_iff_counts
    (selectByPfx hunkSelectionId s.hunkSelection (pathKey stackId path))
    (selectByPfx hunkAssignmentId s.hunkAssignments (pathKey stackId path))
    hndsP hndaP hsub
  by_cases h0 : (selectByPfx hunkSelectionId s.hunkSelection
      (pathKey stackId path)).length = 0
  · have hnil : selectByPfx hunkSelectionId s.hunkSelection
        (pathKey stackId path) = [] := List.length_eq_zero.mp h0
    have hstat : fileCheckStatus s stackId path =
        CheckboxStatus.unchecked := by
      unfold fileCheckStatus
      rw [if_pos (by simp [h0])]
    refine ⟨htri _, ?_, ?_⟩
    · constructor
      · intro _
        exact hnil
      · intro _
        exact hstat
    · constructor
      · intro hch
        rw [hstat] at hch
        exact absurd hch (by decide)
      · rintro ⟨hne, _⟩
        exact absurd hnil hne
  · have hne : selectByPfx hunkSelectionId s.hunkSelection
        (pathKey stackId path) ≠ [] := by
      intro hnil
      exact h0 (by rw [hnil]; rfl)
    have hcondIff : ((selectByPfx hunkSelectionId s.hunkSelection
        (pathKey stackId path)).length ==
          (selectByPfx hunkAssignmentId s.hunkAssignments
            (pathKey stackId path)).length &&
        (selectByPfx hunkSelectionId s.hunkSelection
          (pathKey stackId path)).all
            (fun sel => sel.lines.isEmpty)) = true ↔
        ((selectByPfx hunkSelectionId s.hunkSelection
          (pathKey stackId path)).length =
            (selectByPfx hunkAssignmentId s.hunkAssignments
              (pathKey stackId path)).length ∧
         ∀ sel ∈ selectByPfx hunkSelectionId s.hunkSelection
            (pathKey stackId path), sel.lines = []) := by
      rw [Bool.and_eq_true, List.all_eq_true]
      constructor
      · rintro ⟨hb1, hb2⟩
        refine ⟨beq_iff_eq.mp hb1, ?_⟩
        intro sel hsm
        exact List.isEmpty_iff.mp (hb2 sel hsm)
      · rintro ⟨hb1, hb2⟩
        refine ⟨beq_iff_eq.mpr hb1, ?_⟩
        intro sel hsm
        rw [hb2 sel hsm]
        rfl
    by_cases h1 : (selectByPfx hunkSelectionId s.hunkSelection
        (pathKey stackId path)).length =
          (selectByPfx hunkAssignmentId s.hunkAssignments
            (pathKey stackId path)).length ∧
        ∀ sel ∈ selectByPfx hunkSelectionId s.hunkSelection
          (pathKey stackId path), sel.lines = []
    · have hstat : fileCheckStatus s stackId path =
          CheckboxStatus.checked := by
        unfold fileCheckStatus
        rw [if_neg (by simp [h0]), if_pos (hcondIff.mpr h1)]
      refine ⟨htri _, ?_, ?_⟩
      · constructor
        · intro hun
          rw [hstat] at hun
          exact absurd hun (by decide)
        · intro hnil
          exact absurd hnil hne
      · constructor
        · intro _
          exact ⟨hne, hcount.mp h1⟩
        · intro _
          exact hstat
    · have hstat : fileCheckStatus s stackId path =
          CheckboxStatus.indeterminate := by
        unfold fileCheckStatus
        rw [if_neg (by simp [h0]),
          if_neg (fun hc => h1 (hcondIff.mp hc))]
      refine ⟨htri _, ?_, ?_⟩
      · constructor
        · intro hun
          rw [hstat] at hun
          exact absurd hun (by decide)
        · intro hnil
          exact absurd hnil hne
      · constructor
        · intro hch
          rw [hstat] at hch
          exact absurd hch (by decide)
        · rintro ⟨_, hcov⟩
          exact absurd (hcount.mpr hcov) h1

/-- Witness for C3 at a state with one assignment fully selected. -/
theorem C3_witness :
    fileCheckStatus sampleCheckedState (some "a") "f.txt" =
      CheckboxStatus.checked :=
  ((C3_fileCheckStatus_tristate sampleCheckedState (some "a") "f.txt"
      (by decide) (by decide)
      (by unfold SelectionsValid; decide)).2.2).mpr
    ⟨by decide, by decide⟩

/-- Key membership in the selection collection, spelled out. -/
theorem hasSelectionKey_iff (sels : EntityState HunkSelection)
    (k : String) :
    hasSelectionKey sels k = true ↔
      ∃ sel ∈ sels, hunkSelectionId sel = k := by
  unfold hasSelectionKey
  rw [List.any_eq_true]
  constructor
  · rintro ⟨sel, hm, he⟩
    exact ⟨sel, hm, beq_iff_eq.mp he⟩
  · rintro ⟨sel, hm, he⟩
    exact ⟨sel, hm, beq_iff_eq.mpr he⟩

/-- Behaviour of the folder/stack tri-state if-chain on a non-empty match
list: checked means every matched assignment has a selection, unchecked
means none has, indeterminate means some but not all have. -/
theorem triIfChain_spec (sels : EntityState HunkSelection)
    (mf : List HunkAssignment) (hne : mf ≠ []) (st : CheckboxStatus)
    (hst : st = (if mf.length == 0 then CheckboxStatus.unchecked
      else if mf.all (fun a => hasSelectionKey sels (hunkAssignmentId a))
        then CheckboxStatus.checked
      else if mf.any (fun a => hasSelectionKey sels (hunkAssignmentId a))
        then CheckboxStatus.indeterminate
      else CheckboxStatus.unchecked)) :
    (st = CheckboxStatus.checked ↔ ∀ a ∈ mf, ∃ sel ∈ sels,
      hunkSelectionId sel = hunkAssignmentId a) ∧
    (st = CheckboxStatus.unchecked ↔ ∀ a ∈ mf, ¬∃ sel ∈ sels,
      hunkSelectionId sel = hunkAssignmentId a) ∧
    (st = CheckboxStatus.indeterminate ↔
      ((∃ a ∈ mf, ∃ sel ∈ sels,
        hunkSelectionId sel = hunkAssignmentId a) ∧
       ¬∀ a ∈ mf, ∃ sel ∈ sels,
        hunkSelectionId sel = hunkAssignmentId a)) := by
  have h0 : mf.length ≠ 0 := fun h => hne (List.length_eq_zero.mp h)
  rw [if_neg (show ¬((mf.length == 0) = true) by simp [h0])] at hst
  have hallIff : mf.all (fun a => hasSelectionKey sels
      (hunkAssignmentId a)) = true ↔
      ∀ a ∈ mf, ∃ sel ∈ sels, hunkSelectionId sel = hunkAssignmentId a := by
    rw [List.all_eq_true]
    constructor
    · intro h a ha
      exact (hasSelectionKey_iff _ _).mp (h a ha)
    · intro h a ha
      exact (hasSelectionKey_iff _ _).mpr (h a ha)
  have hanyIff : mf.any (fun a => hasSelectionKey sels
      (hunkAssignmentId a)) = true ↔
      ∃ a ∈ mf, ∃ sel ∈ sels, hunkSelectionId sel = hunkAssignmentId a := by
    rw [List.any_eq_true]
    constructor
    · rintro ⟨a, ha, hb⟩
      exact ⟨a, ha, (hasSelectionKey_iff _ _).mp hb⟩
    · rintro ⟨a, ha, hb⟩
      exact ⟨a, ha, (hasSelectionKey_iff _ _).mpr hb⟩
  by_cases hball : mf.all (fun a => hasSelectionKey sels
      (hunkAssignmentId a)) = true
  · rw [if_pos hball] at hst
    subst hst
    refine ⟨⟨fun _ => hallIff.mp hball, fun _ => rfl⟩, ?_, ?_⟩
    · constructor
      · intro h
        exact absurd h (by decide)
      · intro hnone
        rcases List.exists_mem_of_ne_nil mf hne with ⟨a0, ha0⟩
        exact absurd (hallIff.mp hball a0 ha0) (hnone a0 ha0)
    · constructor
      · intro h
        exact absurd h (by decide)
      · rintro ⟨_, hnall⟩
        exact absurd (hallIff.mp hball) hnall
  · rw [if_neg hball] at hst
    by_cases hbany : mf.any (fun a => hasSelectionKey sels
        (hunkAssignmentId a)) = true
    · rw [if_pos hbany] at hst
      subst hst
      refine ⟨?_, ?_, ?_⟩
      · constructor
        · intro h
          exact absurd h (by decide)
        · intro hall
          exact absurd (hallIff.mpr hall) hball
      · constructor
        · intro h
          exact absurd h (by decide)
        · intro hnone
          rcases hanyIff.mp hbany with ⟨a, ha, hsel⟩
          exact absurd hsel (hnone a ha)
      · exact ⟨fun _ => ⟨hanyIff.mp hbany,
          fun hall => hball (hallIff.mpr hall)⟩, fun _ => rfl⟩
    · rw [if_neg hbany] at hst
      subst hst
      refine ⟨?_, ?_, ?_⟩
      · constructor
        · intro h
          exact absurd h (by decide)
        · intro hall
          exact absurd (hallIff.mpr hall) hball
      · refine ⟨fun _ => ?_, fun _ => rfl⟩
        intro a ha hsel
        exact hbany (hanyIff.mpr ⟨a, ha, hsel⟩)
      · constructor
        · intro h
          exact absurd h (by decide)
        · rintro ⟨hex, _⟩
          exact absurd (hanyIff.mpr hex) hbany

/-- C4 counterexample: read literally, the claimed characterization fails at
the empty state — with no assignment matching the prefix "every matching
assignment has some selection" holds vacuously, yet `folderCheckStatus` and
`stackCheckStatus` answer `unchecked`, not `checked`. -/
theorem C4_counterexample :
    (∀ a ∈ selectByPfx hunkAssignmentId initialState.hunkAssignments
        (dirKey (some "a") "dir"),
      ∃ sel ∈ initialState.hunkSelection,
        hunkSelectionId sel = hunkAssignmentId a) ∧
    folderCheckStatus initialState (some "a") "dir" ≠
      CheckboxStatus.checked ∧
    (∀ a ∈ selectByPfx hunkAssignmentId initialState.hunkAssignments
        (stackOnlyKey (some "a")),
      ∃ sel ∈ initialState.hunkSelection,
        hunkSelectionId sel = hunkAssignmentId a) ∧
    stackCheckStatus initialState (some "a") ≠ CheckboxStatus.checked := by
  refine ⟨?_, by decide, ?_, by decide⟩
  · intro a ha
    exact absurd ha (List.not_mem_nil a)
  · intro a ha
    exact absurd ha (List.not_mem_nil a)

/-- C4 (amended): when at least one assignment matches the prefix,
`folderCheckStatus` and `stackCheckStatus` are `checked` precisely when
every matching assignment's key has some selection — whatever its line
set — `unchecked` precisely when none has, and `indeterminate` otherwise;
when no assignment matches, both answer `unchecked`.  Each status is
exactly one of the three. -/
theorem C4_folder_stack_tristate (s : UncommittedState)
    (stackId : Option String) (path : String) :
    (folderCheckStatus s stackId path = CheckboxStatus.checked ∨
     folderCheckStatus s stackId path = CheckboxStatus.indeterminate ∨
     folderCheckStatus s stackId path = CheckboxStatus.unchecked) ∧
    (stackCheckStatus s stackId = CheckboxStatus.checked ∨
     stackCheckStatus s stackId = CheckboxStatus.indeterminate ∨
     stackCheckStatus s stackId = CheckboxStatus.unchecked) ∧
    (selectByPfx hunkAssignmentId s.hunkAssignments
        (dirKey stackId path) = [] →
      folderCheckStatus s stackId path = CheckboxStatus.unchecked) ∧
    (selectByPfx hunkAssignmentId s.hunkAssignments
        (stackOnlyKey stackId) = [] →
      stackCheckStatus s stackId = CheckboxStatus.unchecked) ∧
    (selectByPfx hunkAssignmentId s.hunkAssignments
        (dirKey stackId path) ≠ [] →
      ((folderCheckStatus s stackId path = CheckboxStatus.checked ↔
        ∀ a ∈ selectByPfx hunkAssignmentId s.hunkAssignments
          (dirKey stackId path),
          ∃ sel ∈ s.hunkSelection,
            hunkSelectionId sel = hunkAssignmentId a) ∧
       (folderCheckStatus s stackId path = CheckboxStatus.unchecked ↔
        ∀ a ∈ selectByPfx hunkAssignmentId s.hunkAssignments
          (dirKey stackId path),
          ¬∃ sel ∈ s.hunkSelection,
            hunkSelectionId sel = hunkAssignmentId a) ∧
       (folderCheckStatus s stackId path = CheckboxStatus.indeterminate ↔
        ((∃ a ∈ selectByPfx hunkAssignmentId s.hunkAssignments
            (dirKey stackId path),
          ∃ sel ∈ s.hunkSelection,
            hunkSelectionId sel = hunkAssignmentId a) ∧
         ¬∀ a ∈ selectByPfx hunkAssignmentId s.hunkAssignments
            (dirKey stackId path),
          ∃ sel ∈ s.hunkSelection,
            hunkSelectionId sel = hunkAssignmentId a)))) ∧
    (selectByPfx hunkAssignmentId s.hunkAssignments
        (stackOnlyKey stackId) ≠ [] →
      ((stackCheckStatus s stackId = CheckboxStatus.checked ↔
        ∀ a ∈ selectByPfx hunkAssignmentId s.hunkAssignments
          (stackOnlyKey stackId),
          ∃ sel ∈ s.hunkSelection,
            hunkSelectionId sel = hunkAssignmentId a) ∧
       (stackCheckStatus s stackId = CheckboxStatus.unchecked ↔
        ∀ a ∈ selectByPfx hunkAssignmentId s.hunkAssignments
          (stackOnlyKey stackId),
          ¬∃ sel ∈ s.hunkSelection,
            hunkSelectionId sel = hunkAssignmentId a) ∧
       (stackCheckStatus s stackId = CheckboxStatus.indeterminate ↔
        ((∃ a ∈ selectByPfx hunkAssignmentId s.hunkAssignments
            (stackOnlyKey stackId),
          ∃ sel ∈ s.hunkSelection,
            hunkSelectionId sel = hunkAssignmentId a) ∧
         ¬∀ a ∈ selectByPfx hunkAssignmentId s.hunkAssignments
            (stackOnlyKey stackId),
          ∃ sel ∈ s.hunkSelection,
            hunkSelectionId sel = hunkAssignmentId a)))) := by
  have htri : ∀ c : CheckboxStatus, c = CheckboxStatus.checked ∨
      c = CheckboxStatus.indeterminate ∨ c = CheckboxStatus.unchecked := by
    intro c
    cases c
    · exact Or.inl rfl
    · exact Or.inr (Or.inl rfl)
    · exact Or.inr (Or.inr rfl)
  refine ⟨htri _, htri _, ?_, ?_, ?_, ?_⟩
  · intro hnil
    unfold folderCheckStatus
    rw [if_pos (by simp [hnil])]
  · intro hnil
    unfold stackCheckStatus
    rw [if_pos (by simp [hnil])]
  · intro hne
    exact triIfChain_spec s.hunkSelection
      (selectByPfx hunkAssignmentId s.hunkAssignments (dirKey stackId path))
      hne (folderCheckStatus s stackId path) rfl
  · intro hne
    exact triIfChain_spec s.hunkSelection
      (selectByPfx hunkAssignmentId s.hunkAssignments (stackOnlyKey stackId))
      hne (stackCheckStatus s stackId) rfl

/-- Witness for C4: a selection carrying a non-empty line set still makes
the folder and the stack read `checked`. -/
theorem C4_witness :
    folderCheckStatus sampleDirState (some "a") "dir" =
        CheckboxStatus.checked ∧
    stackCheckStatus sampleDirState (some "a") = CheckboxStatus.checked :=
  ⟨(((C4_folder_stack_tristate sampleDirState (some "a") "dir").2.2.2.2.1
      (by decide)).1).mpr (by decide),
   (((C4_folder_stack_tristate sampleDirState (some "a") "dir").2.2.2.2.2
      (by decide)).1).mpr (by decide)⟩

/-- C1 counterexample: the claim says a selection survives `update` only
when some new assignment carries the same stable id, and is dropped
otherwise.  Here no new assignment carries any stable id at all
(`c1NewAssignment.id = none`), so under the claim the old selection must be
dropped and the rebuilt selection collection must be empty — yet the
reducer's fallback keying (composite key for an id-less assignment) matches
the old selection's stable id string and re-creates the selection. -/
theorem C1_counterexample :
    (∀ a ∈ [c1NewAssignment], a.id = none) ∧
    c1OldSelection.stableId = some (hunkAssignmentId c1NewAssignment) ∧
    c1State.hunkSelection = [c1OldSelection] ∧
    (updateAssignments c1State [c1NewAssignment] []).hunkSelection =
      [mkReselection c1NewAssignment] := by
  refine ⟨?_, rfl, rfl, ?_⟩
  · intro a ha
    rw [List.mem_singleton.mp ha]
    rfl
  · decide

/-- C1 (amended): `update` wholesale replaces the tree changes and the hunk
assignments with the given sets (up to first-key-wins de-duplication), and
re-derives the selections by stable keys: each old selection is looked up
by its stable id — falling back to its assignmentId when the stable id is
null or empty — among the new assignments keyed by their stable id —
falling back to their composite key when null or empty, later duplicates
winning; on a hit a selection carrying the matched assignment's composite
key and an empty line set exists afterwards, and every selection of the new
state arises from such a hit with an empty line set (so unmatched old
selections are dropped). -/
theorem C1_updateAssignments_relink (s : UncommittedState)
    (assignments : List HunkAssignment) (changes : List TreeChange) :
    (∀ c ∈ (updateAssignments s assignments changes).treeChanges,
      c ∈ changes) ∧
    (∀ c ∈ changes, ∃ c2 ∈ (updateAssignments s assignments
      changes).treeChanges, treeChangeId c2 = treeChangeId c) ∧
    (∀ a ∈ (updateAssignments s assignments changes).hunkAssignments,
      a ∈ assignments) ∧
    (∀ a ∈ assignments, ∃ a2 ∈ (updateAssignments s assignments
      changes).hunkAssignments, hunkAssignmentId a2 = hunkAssignmentId a) ∧
    (∀ sel ∈ (updateAssignments s assignments changes).hunkSelection,
      sel.lines = [] ∧ ∃ o ∈ s.hunkSelection, ∃ a,
        mapLookup assignments (oldSelectionKey o) = some a ∧
        sel = mkReselection a) ∧
    (∀ o ∈ s.hunkSelection, ∀ a,
      mapLookup assignments (oldSelectionKey o) = some a →
      ∃ sel ∈ (updateAssignments s assignments changes).hunkSelection,
        hunkSelectionId sel = hunkAssignmentId a ∧ sel.lines = []) := by
  refine ⟨?_, ?_, ?_, ?_, ?_, ?_⟩
  · intro c hc
    have hc2 : c ∈ addMany treeChangeId [] changes := hc
    rcases mem_addMany _ hc2 with h | h
    · cases h
    · exact h
  · intro c hc
    exact addMany_key_of_mem treeChangeId [] hc
  · intro a ha
    have ha2 : a ∈ addMany hunkAssignmentId [] assignments := ha
    rcases mem_addMany _ ha2 with h | h
    · cases h
    · exact h
  · intro a ha
    exact addMany_key_of_mem hunkAssignmentId [] ha
  · intro sel hm
    have hm2 : sel ∈ s.hunkSelection.foldl (relinkStep assignments) [] := hm
    rcases mem_relinkFold hm2 with h | ⟨o, ho, a, hmap, he⟩
    · cases h
    · exact ⟨by rw [he]; rfl, o, ho, a, hmap, he⟩
  · intro o ho a hmap
    exact relinkFold_hit ho hmap (fun b hb => absurd hb (List.not_mem_nil b))

/-- Witness for the amended C1: the old selection whose stable id matches
the new assignment's fallback key is re-created with an empty line set. -/
theorem C1_witness :
    ∃ sel ∈ (updateAssignments c1State [c1NewAssignment] []).hunkSelection,
      hunkSelectionId sel = hunkAssignmentId c1NewAssignment ∧
      sel.lines = [] :=
  (C1_updateAssignments_relink c1State [c1NewAssignment] []).2.2.2.2.2
    c1OldSelection (by decide) c1NewAssignment (by decide)
